import Mathlib

/-!
Shallow embedding of the job-intel core: the resource monitor
(`src/services/resource_monitor.py`), the freshness / retention manager
(`src/services/freshness.py`), the record store upsert layer
(`src/services/job_service.py`) and the scraper registry
(`src/scrapers/registry.py`), together with proofs of the behavioural
properties claimed for them.

Modelling conventions:
- timestamps are integers (an abstract clock, one unit = one day);
- percentages sampled by `psutil` are rationals;
- `datetime.utcnow()` is passed in explicitly as a parameter `now`;
- the HTTP validity probe is an oracle `String → ProbeResult`;
- the database is a list of rows; a SQLAlchemy session with
  `autoflush=False` is modelled as (committed view, pending inserts),
  where in-place updates hit the view (identity map) and pending
  inserts are invisible to later lookups in the same batch, and the
  final commit fails iff the pending inserts violate the unique
  constraint on (source, external_id).
-/

namespace JobIntel

/-! ### Resource monitor (`src/services/resource_monitor.py`) -/

/-- `ThrottleLevel(int, Enum)` with values NORMAL=0, LIGHT=1, HEAVY=2, PAUSE=3. -/
inductive ThrottleLevel
  | NORMAL
  | LIGHT
  | HEAVY
  | PAUSE
deriving DecidableEq, Repr, Fintype

/-- The integer value of the `int` enum. -/
def ThrottleLevel.val : ThrottleLevel → Nat
  | .NORMAL => 0
  | .LIGHT => 1
  | .HEAVY => 2
  | .PAUSE => 3

/-- `TaskType` categories of background work. -/
inductive TaskType
  | CRITICAL
  | SCRAPING
  | CLEANUP
  | API
deriving DecidableEq, Repr, Fintype

/-- Configuration defaults from `src/core/config.py` (`Settings`). -/
structure Settings where
  RESOURCE_DISK_MIN_FREE_PERCENT : ℚ
  RESOURCE_CPU_MAX_PERCENT : ℚ
  RETENTION_EXPIRED_DAYS : Int
  RETENTION_ARCHIVE_DAYS : Int

/-- The default settings instance (`settings = Settings()`). -/
def settings : Settings :=
  { RESOURCE_DISK_MIN_FREE_PERCENT := 15
  , RESOURCE_CPU_MAX_PERCENT := 85
  , RETENTION_EXPIRED_DAYS := 30
  , RETENTION_ARCHIVE_DAYS := 90 }

/-- The throttle-classification cascade of
`ResourceMonitor.get_current_status`, as a function of the sampled
`cpu_percent` and derived `disk_free_percent`. -/
def computeThrottleLevel (cpu_percent disk_free_pct : ℚ) : ThrottleLevel :=
  if disk_free_pct < 10 ∨ cpu_percent > 95 then
    ThrottleLevel.PAUSE
  else if disk_free_pct < settings.RESOURCE_DISK_MIN_FREE_PERCENT
      ∨ cpu_percent > settings.RESOURCE_CPU_MAX_PERCENT then
    ThrottleLevel.HEAVY
  else if disk_free_pct < 20 ∨ cpu_percent > 75 then
    ThrottleLevel.LIGHT
  else
    ThrottleLevel.NORMAL

/-- `ResourceMonitor.can_run_task`, as a function of the cached
status's throttle level. -/
def can_run_task (level : ThrottleLevel) (task_type : TaskType) : Bool :=
  match task_type with
  | .CRITICAL => true
  | .API => level.val < ThrottleLevel.PAUSE.val
  | .SCRAPING => level.val ≤ ThrottleLevel.LIGHT.val
  | .CLEANUP => level.val ≤ ThrottleLevel.HEAVY.val

/-! ### Data model (`src/db/models.py`) -/

/-- A row of the `jobs` table (`class Job`).  `tags` is a JSON mapping
of string keys to string-list values. -/
structure JobRec where
  id : Nat
  source : String
  external_id : String
  title : String
  company : Option String
  location : Option String
  salary_min : Option Int
  salary_max : Option Int
  salary_text : Option String
  category : Option String
  tags : List (String × List String)
  url : Option String
  published_at : Option Int
  fetched_at : Int
  is_remote : Bool
  is_valid : Bool
  last_validated_at : Option Int
  deleted_at : Option Int
deriving DecidableEq, Repr

/-- A row of the `archived_jobs` table (`class ArchivedJob`): same
field set as `Job` except `deleted_at`, plus `archived_at`. -/
structure ArchivedJobRec where
  id : Nat
  source : String
  external_id : String
  title : String
  company : Option String
  location : Option String
  salary_min : Option Int
  salary_max : Option Int
  salary_text : Option String
  category : Option String
  tags : List (String × List String)
  url : Option String
  published_at : Option Int
  fetched_at : Int
  is_remote : Bool
  is_valid : Bool
  last_validated_at : Option Int
  archived_at : Int
deriving DecidableEq, Repr

/-! ### Freshness manager (`src/services/freshness.py`) -/

/-- `RetentionPolicy` with defaults from settings. -/
structure RetentionPolicy where
  expired_days : Int
  archive_days : Int

/-- The default policy (`RetentionPolicy()`). -/
def defaultPolicy : RetentionPolicy :=
  { expired_days := settings.RETENTION_EXPIRED_DAYS
  , archive_days := settings.RETENTION_ARCHIVE_DAYS }

/-- Outcome of the HTTP HEAD probe against a record's URL: either a
response with a status code, or a raised exception. -/
inductive ProbeResult
  | response (status_code : Nat)
  | failure
deriving DecidableEq, Repr

/-- `FreshnessManager.check_job_validity`.  Returns the (possibly
updated) job together with the boolean the method returns.  With no
URL the job is assumed valid and untouched; a raised probe exception
leaves the job untouched and reports valid; a completed response sets
`is_valid` to "status code not in [404, 410, 403]" and stamps
`last_validated_at`. -/
def check_job_validity (probe : String → ProbeResult) (now : Int)
    (job : JobRec) : JobRec × Bool :=
  match job.url with
  | none => (job, true)
  | some u =>
    match probe u with
    | .failure => (job, true)
    | .response code =>
      let is_valid := !(code == 404 || code == 410 || code == 403)
      ({ job with is_valid := is_valid, last_validated_at := some now }, is_valid)

/-- `FreshnessManager.soft_delete_job`: stamp `deleted_at`. -/
def soft_delete_job (now : Int) (job : JobRec) : JobRec :=
  { job with deleted_at := some now }

/-- `FreshnessManager.archive_job`'s archive-row construction: copy
every field of `Job.to_dict()` (which omits `deleted_at`), preserve
the original primary key, and stamp `archived_at`. -/
def archive_job (now : Int) (job : JobRec) : ArchivedJobRec :=
  { id := job.id
  , source := job.source
  , external_id := job.external_id
  , title := job.title
  , company := job.company
  , location := job.location
  , salary_min := job.salary_min
  , salary_max := job.salary_max
  , salary_text := job.salary_text
  , category := job.category
  , tags := job.tags
  , url := job.url
  , published_at := job.published_at
  , fetched_at := job.fetched_at
  , is_remote := job.is_remote
  , is_valid := job.is_valid
  , last_validated_at := job.last_validated_at
  , archived_at := now }

/-- The `get_stale_jobs` selection predicate:
`Job.fetched_at < cutoff, Job.deleted_at.is_(None)`. -/
def isStale (cutoff : Int) (job : JobRec) : Bool :=
  decide (job.fetched_at < cutoff) && job.deleted_at == none

/-- The archive selection predicate `Job.deleted_at < archive_cutoff`:
a SQL comparison against NULL selects nothing. -/
def shouldArchive (cutoff : Int) (job : JobRec) : Bool :=
  match job.deleted_at with
  | some d => decide (d < cutoff)
  | none => false

/-- Pass 1 of `run_cleanup_cycle`: validate the first `budget` stale
rows (the `get_stale_jobs` batch, `.limit(100)`) in table order,
soft-deleting those found invalid.  Returns the updated table and the
(validated, soft_deleted) counters. -/
def validatePass (probe : String → ProbeResult) (now cutoff : Int) :
    Nat → List JobRec → List JobRec × Nat × Nat
  | _, [] => ([], 0, 0)
  | budget, job :: rest =>
    if 0 < budget ∧ isStale cutoff job then
      let checked := check_job_validity probe now job
      let job2 := if checked.2 then checked.1 else soft_delete_job now checked.1
      let r := validatePass probe now cutoff (budget - 1) rest
      (job2 :: r.1, r.2.1 + 1, r.2.2 + (if checked.2 then 0 else 1))
    else
      let r := validatePass probe now cutoff budget rest
      (job :: r.1, r.2.1, r.2.2)

/-- Pass 2 of `run_cleanup_cycle`: archive the first `budget` rows
with `deleted_at < cutoff` (the archive selection, `.limit(100)`),
each one copied to the archive table and deleted from the active
table.  Returns the remaining table and the new archive rows in
order. -/
def archivePass (now cutoff : Int) :
    Nat → List JobRec → List JobRec × List ArchivedJobRec
  | _, [] => ([], [])
  | budget, job :: rest =>
    if 0 < budget ∧ shouldArchive cutoff job then
      let r := archivePass now cutoff (budget - 1) rest
      (r.1, archive_job now job :: r.2)
    else
      let r := archivePass now cutoff budget rest
      (job :: r.1, r.2)

/-- The stats dictionary returned by `run_cleanup_cycle`. -/
structure CleanupStats where
  validated : Nat
  soft_deleted : Nat
  archived : Nat
deriving DecidableEq, Repr

/-- The persistent store the freshness manager acts on: the active
`jobs` table and the `archived_jobs` table. -/
structure StoreState where
  jobs : List JobRec
  archived : List ArchivedJobRec
deriving DecidableEq, Repr

/-- `FreshnessManager.run_cleanup_cycle`: if the current throttle
level is `>= ThrottleLevel.HEAVY` return zero stats untouched;
otherwise run the validation pass over the stale batch and then the
archive pass over the (updated) table. -/
def run_cleanup_cycle (probe : String → ProbeResult) (now : Int)
    (policy : RetentionPolicy) (level : ThrottleLevel)
    (st : StoreState) : StoreState × CleanupStats :=
  if ThrottleLevel.HEAVY.val ≤ level.val then
    (st, ⟨0, 0, 0⟩)
  else
    let stale_cutoff := now - policy.expired_days
    let p1 := validatePass probe now stale_cutoff 100 st.jobs
    let archive_cutoff := now - policy.archive_days
    let p2 := archivePass now archive_cutoff 100 p1.1
    (⟨p2.1, st.archived ++ p2.2⟩, ⟨p1.2.1, p1.2.2, p2.2.length⟩)

/-! ### Record store (`src/services/job_service.py`) -/

/-- The composite identity of a row: `(source, external_id)`. -/
def jobKey (job : JobRec) : String × String :=
  (job.source, job.external_id)

/-- The in-place update branch of `JobService.upsert_batch`: copy the
scrape-mutable fields of the incoming record onto the existing row,
leaving every other column of the existing row as it was. -/
def update_existing (existing job : JobRec) : JobRec :=
  { existing with
    title := job.title
  , company := job.company
  , location := job.location
  , salary_min := job.salary_min
  , salary_max := job.salary_max
  , salary_text := job.salary_text
  , tags := job.tags
  , url := job.url
  , is_remote := job.is_remote
  , fetched_at := job.fetched_at }

/-- Apply `update_existing` to the first row with the given record's
key (the row `select(...).scalars().first()` returns). -/
def updateFirstMatch : List JobRec → JobRec → List JobRec
  | [], _ => []
  | e :: rest, job =>
    if jobKey e = jobKey job then update_existing e job :: rest
    else e :: updateFirstMatch rest job

/-- One iteration of the `upsert_batch` loop over the session state
(committed view, pending inserts).  The existence query only sees the
committed view — the session is created with `autoflush=False`
(`src/db/session.py`), so rows added earlier in the same batch are
not flushed and stay invisible; rows already loaded and updated are
returned from the identity map with their in-memory updates. -/
def upsert_one (acc : List JobRec × List JobRec) (job : JobRec) :
    List JobRec × List JobRec :=
  if acc.1.any (fun e => jobKey e = jobKey job) then
    (updateFirstMatch acc.1 job, acc.2)
  else
    (acc.1, acc.2 ++ [job])

/-- `JobService.upsert_batch` followed by its final `commit`.  The
commit persists the in-place updates and the pending inserts, and
fails (`none`, nothing persisted) iff the inserts violate the unique
constraint `uq_source_external_id` — a pending key colliding with a
table key or with another pending key. -/
def upsert_batch (store : List JobRec) (jobs : List JobRec) :
    Option (List JobRec) :=
  let s := jobs.foldl upsert_one (store, [])
  if (s.2.map jobKey).Nodup ∧ ∀ j ∈ s.2, jobKey j ∉ s.1.map jobKey then
    some (s.1 ++ s.2)
  else
    none

/-- Agreement on every column `update_existing` leaves alone: the
identity columns, `category`, `published_at` and the validity
bookkeeping. -/
def NonMutEq (e x : JobRec) : Prop :=
  e.id = x.id ∧ e.source = x.source ∧ e.external_id = x.external_id ∧
  e.category = x.category ∧ e.published_at = x.published_at ∧
  e.is_valid = x.is_valid ∧ e.last_validated_at = x.last_validated_at ∧
  e.deleted_at = x.deleted_at

/-! ### Scraper registry (`src/scrapers/registry.py`) -/

/-- Outcome of one unit's `fetch_jobs()` inside `asyncio.gather(...,
return_exceptions=True)`: a list of records, or a raised exception. -/
inductive FetchResult
  | ok (jobs : List JobRec)
  | error
deriving DecidableEq, Repr

/-- One registered scraper: its config-enabled flag and what its
`fetch_jobs()` coroutine produces this run. -/
structure ScraperUnit where
  source_name : String
  enabled : Bool
  fetch : FetchResult
deriving DecidableEq, Repr

/-- `BaseScraper.should_run`: config-enabled AND the admission
controller admits SCRAPING (`can_run_task(TaskType.SCRAPING)`, one
shared monitor, hence one boolean per run). -/
def should_run (admitScraping : Bool) (s : ScraperUnit) : Bool :=
  s.enabled && admitScraping

/-- `ScraperRegistry.get_all_enabled`. -/
def get_all_enabled (scrapers : List ScraperUnit) : List ScraperUnit :=
  scrapers.filter (fun s => s.enabled)

/-- `ScraperRegistry.run_all`: gather the fetches of every enabled
unit passing `should_run`, keep list results in order, drop
exceptions, concatenate. -/
def run_all (admitScraping : Bool) (scrapers : List ScraperUnit) :
    List JobRec :=
  let results := ((get_all_enabled scrapers).filter (should_run admitScraping)).map
    (fun s => s.fetch)
  results.foldl
    (fun acc r => match r with | .ok js => acc ++ js | .error => acc) []

/-! ### Shared concrete records for witnesses -/

/-- A baseline active record used to instantiate theorems. -/
def baseJob : JobRec :=
  { id := 1
  , source := "tavily"
  , external_id := "e1"
  , title := "t"
  , company := none
  , location := none
  , salary_min := none
  , salary_max := none
  , salary_text := none
  , category := none
  , tags := []
  , url := none
  , published_at := none
  , fetched_at := 0
  , is_remote := false
  , is_valid := true
  , last_validated_at := none
  , deleted_at := none }

/-- A probe oracle that always answers 200 OK. -/
def probeOk : String → ProbeResult := fun _ => .response 200

/-- A probe oracle that always answers 410 Gone. -/
def probeGone : String → ProbeResult := fun _ => .response 410

/-- A probe oracle that always raises. -/
def probeDown : String → ProbeResult := fun _ => .failure

/-- A record fetched 60 days before the clock origin, with a URL:
stale for the default 30-day policy. -/
def staleJob : JobRec :=
  { baseJob with fetched_at := -60, url := some "u" }

/-- A store holding just the stale record. -/
def staleStore : StoreState := ⟨[staleJob], []⟩

/-- The stale record after a cleanup cycle whose probe answered 410:
marked invalid, validation-stamped, soft-deleted. -/
def staleJobGone : JobRec :=
  { staleJob with is_valid := false, last_validated_at := some 0, deleted_at := some 0 }

/-- A rescrape of `baseJob`: same identity, new title and fetch
stamp. -/
def jobT2 : JobRec := { baseJob with title := "t2", fetched_at := 9 }

/-- What one gathered fetch outcome contributes to `run_all`. -/
def fetchContribution (r : FetchResult) : List JobRec :=
  match r with
  | .ok js => js
  | .error => []

/-- A record soft-deleted 91 days before the clock origin: past the
default 90-day archive threshold. -/
def oldDeletedJob : JobRec :=
  { baseJob with fetched_at := -120, deleted_at := some (-91) }

/-- A store holding just the long-soft-deleted record. -/
def archStore : StoreState := ⟨[oldDeletedJob], []⟩

/-! ### Theorems -/

/-- C2: for every cached throttle level, `can_run_task` returns
exactly the policy table — CRITICAL always; API and CLEANUP at every
level except PAUSE; SCRAPING only at NORMAL and LIGHT — and admission
is monotonic in severity: a category admitted at some level is
admitted at every less-severe level. -/
theorem can_run_policy_table :
    (∀ level : ThrottleLevel,
      can_run_task level .CRITICAL = true ∧
      (can_run_task level .API = true ↔ level ≠ .PAUSE) ∧
      (can_run_task level .CLEANUP = true ↔ level ≠ .PAUSE) ∧
      (can_run_task level .SCRAPING = true ↔
        (level = .NORMAL ∨ level = .LIGHT))) ∧
    (∀ (l l' : ThrottleLevel) (t : TaskType),
      l.val ≤ l'.val → can_run_task l' t = true → can_run_task l t = true) := by
  decide

/-- Witness for C2: SCRAPING admitted at LIGHT implies it is admitted
at NORMAL. -/
theorem can_run_policy_table_witness :
    can_run_task .NORMAL .SCRAPING = true :=
  can_run_policy_table.2 .NORMAL .LIGHT .SCRAPING (by decide) (by decide)

/-- The PAUSE tier of the classification cascade. -/
theorem computeThrottleLevel_eq_pause (cpu d : ℚ) :
    computeThrottleLevel cpu d = .PAUSE ↔ (d < 10 ∨ cpu > 95) := by
  unfold computeThrottleLevel
  split_ifs <;> simp_all

/-- The HEAVY tier of the classification cascade. -/
theorem computeThrottleLevel_eq_heavy (cpu d : ℚ) :
    computeThrottleLevel cpu d = .HEAVY ↔
      (¬(d < 10 ∨ cpu > 95) ∧ (d < 15 ∨ cpu > 85)) := by
  unfold computeThrottleLevel
  simp only [settings]
  split_ifs <;> simp_all

/-- The LIGHT tier of the classification cascade. -/
theorem computeThrottleLevel_eq_light (cpu d : ℚ) :
    computeThrottleLevel cpu d = .LIGHT ↔
      (¬(d < 10 ∨ cpu > 95) ∧ ¬(d < 15 ∨ cpu > 85) ∧ (d < 20 ∨ cpu > 75)) := by
  unfold computeThrottleLevel
  simp only [settings]
  split_ifs <;> simp_all

/-- The NORMAL tier of the classification cascade. -/
theorem computeThrottleLevel_eq_normal (cpu d : ℚ) :
    computeThrottleLevel cpu d = .NORMAL ↔
      (¬(d < 10 ∨ cpu > 95) ∧ ¬(d < 15 ∨ cpu > 85) ∧ ¬(d < 20 ∨ cpu > 75)) := by
  unfold computeThrottleLevel
  simp only [settings]
  split_ifs <;> simp_all

/-- Raising disk-free, with CPU fixed, never raises the level. -/
theorem computeThrottleLevel_antitone (cpu d d' : ℚ) (h : d ≤ d') :
    (computeThrottleLevel cpu d').val ≤ (computeThrottleLevel cpu d).val := by
  unfold computeThrottleLevel
  simp only [settings]
  split_ifs <;> simp_all [ThrottleLevel.val] <;> casesm* _ ∨ _, _ ∧ _ <;> linarith

/-- C3: the derived throttle level is the pure function of
(cpu_percent, disk_free_percent) given by the most-severe-first
cascade — PAUSE iff disk < 10 or cpu > 95, else HEAVY iff disk < 15
(configured default) or cpu > 85 (configured default), else LIGHT iff
disk < 20 or cpu > 75, else NORMAL — and increasing disk-free while
holding cpu fixed never increases the level. -/
theorem throttle_level_table_and_antitone (cpu d d' : ℚ) :
    (computeThrottleLevel cpu d = .PAUSE ↔ (d < 10 ∨ cpu > 95)) ∧
    (computeThrottleLevel cpu d = .HEAVY ↔
      (¬(d < 10 ∨ cpu > 95) ∧
        (d < settings.RESOURCE_DISK_MIN_FREE_PERCENT ∨
          cpu > settings.RESOURCE_CPU_MAX_PERCENT))) ∧
    (computeThrottleLevel cpu d = .LIGHT ↔
      (¬(d < 10 ∨ cpu > 95) ∧ ¬(d < 15 ∨ cpu > 85) ∧ (d < 20 ∨ cpu > 75))) ∧
    (computeThrottleLevel cpu d = .NORMAL ↔
      (¬(d < 10 ∨ cpu > 95) ∧ ¬(d < 15 ∨ cpu > 85) ∧ ¬(d < 20 ∨ cpu > 75))) ∧
    (d ≤ d' → (computeThrottleLevel cpu d').val ≤ (computeThrottleLevel cpu d).val) := by
  refine ⟨computeThrottleLevel_eq_pause cpu d, ?_,
    computeThrottleLevel_eq_light cpu d, computeThrottleLevel_eq_normal cpu d,
    computeThrottleLevel_antitone cpu d d'⟩
  simpa [settings] using computeThrottleLevel_eq_heavy cpu d

/-- Witness for C3: moving disk-free from 12 to 18 at cpu 50 does not
raise the level (HEAVY drops to LIGHT). -/
theorem throttle_level_table_and_antitone_witness :
    (computeThrottleLevel 50 18).val ≤ (computeThrottleLevel 50 12).val :=
  (throttle_level_table_and_antitone 50 12 18).2.2.2.2 (by norm_num)

/-- C1 counterexample: at throttle level HEAVY the admission
controller admits CLEANUP, yet `run_cleanup_cycle` returns all-zero
stats and leaves the store untouched even though a stale record is
present (at NORMAL the same store yields one validation). -/
theorem cleanup_gate_counterexample :
    can_run_task .HEAVY .CLEANUP = true ∧
    run_cleanup_cycle probeOk 0 defaultPolicy .HEAVY staleStore =
      (staleStore, ⟨0, 0, 0⟩) ∧
    (run_cleanup_cycle probeOk 0 defaultPolicy .NORMAL staleStore).2.validated = 1 := by
  refine ⟨rfl, ?_, rfl⟩
  rfl

/-- C1 (amended): `run_cleanup_cycle` returns the all-zero stats
immediately, without touching storage, exactly when the cached
throttle level is HEAVY or PAUSE — a stricter gate than
`can_run(CLEANUP)`, which blocks only at PAUSE; only at NORMAL and
LIGHT does the cycle proceed to the stale-record selection and
archive passes. -/
theorem cleanup_gate_heavy_or_pause (probe : String → ProbeResult)
    (now : Int) (policy : RetentionPolicy) (level : ThrottleLevel)
    (st : StoreState) :
    (ThrottleLevel.HEAVY.val ≤ level.val →
      run_cleanup_cycle probe now policy level st = (st, ⟨0, 0, 0⟩)) ∧
    (level.val < ThrottleLevel.HEAVY.val →
      run_cleanup_cycle probe now policy level st =
        (let p1 := validatePass probe now (now - policy.expired_days) 100 st.jobs
         let p2 := archivePass now (now - policy.archive_days) 100 p1.1
         (⟨p2.1, st.archived ++ p2.2⟩, ⟨p1.2.1, p1.2.2, p2.2.length⟩))) := by
  constructor
  · intro h
    unfold run_cleanup_cycle
    rw [if_pos h]
  · intro h
    unfold run_cleanup_cycle
    rw [if_neg (by omega)]

/-- Witness for C1's amended theorem: at PAUSE the cycle returns zero
stats on the stale store. -/
theorem cleanup_gate_heavy_or_pause_witness :
    run_cleanup_cycle probeOk 0 defaultPolicy .PAUSE staleStore =
      (staleStore, ⟨0, 0, 0⟩) :=
  (cleanup_gate_heavy_or_pause probeOk 0 defaultPolicy .PAUSE staleStore).1
    (by decide)

/-- C4: the probe reports a record with a URL invalid exactly when the
response status is 404, 410 or 403 — any other response, and any
raised probe exception, reports still-valid — and a stale record
whose probe answers 410 Gone is soft-deleted in the same cleanup
cycle. -/
theorem validity_probe_negative_signal (probe : String → ProbeResult)
    (now : Int) (j : JobRec) (u : String) :
    (j.url = some u →
      ((check_job_validity probe now j).2 = false ↔
        (probe u = .response 404 ∨ probe u = .response 410 ∨
          probe u = .response 403))) ∧
    run_cleanup_cycle probeGone 0 defaultPolicy .NORMAL staleStore =
      (⟨[staleJobGone], []⟩, ⟨1, 1, 0⟩) := by
  constructor
  · intro h
    cases hp : probe u with
    | failure => simp [check_job_validity, h, hp]
    | response code =>
      simp [check_job_validity, h, hp]
      tauto
  · rfl

/-- Witness for C4: a 410 response is an explicit negative signal. -/
theorem validity_probe_negative_signal_witness :
    (check_job_validity probeGone 0 staleJob).2 = false :=
  ((validity_probe_negative_signal probeGone 0 staleJob "u").1 rfl).mpr
    (Or.inr (Or.inl rfl))

/-- C5 counterexample: a record with a URL whose probe raises comes
out of `check_job_validity` entirely untouched — in particular
`last_validated_at` stays `none`, though the claim requires it to be
stamped on every probe regardless of outcome. -/
theorem probe_failure_skips_timestamp_counterexample :
    staleJob.url = some "u" ∧
    staleJob.last_validated_at = none ∧
    (check_job_validity probeDown 7 staleJob).1 = staleJob ∧
    (check_job_validity probeDown 7 staleJob).1.last_validated_at = none := by
  exact ⟨rfl, rfl, rfl, rfl⟩

/-- C5 (amended): `last_validated_at` and `is_valid` are rewritten
exactly when the probe completes with a response on a record with a
URL; when the record has no URL, or the probe itself raises, the
record is left entirely untouched (and reported still-valid). -/
theorem validity_probe_field_updates (probe : String → ProbeResult)
    (now : Int) (j : JobRec) (u : String) (c : Nat) :
    (j.url = none → check_job_validity probe now j = (j, true)) ∧
    (j.url = some u → probe u = .failure →
      check_job_validity probe now j = (j, true)) ∧
    (j.url = some u → probe u = .response c →
      (check_job_validity probe now j).1 =
        { j with is_valid := !(c == 404 || c == 410 || c == 403)
               , last_validated_at := some now }) := by
  refine ⟨fun h => ?_, fun h hp => ?_, fun h hp => ?_⟩
  · simp [check_job_validity, h]
  · simp [check_job_validity, h, hp]
  · simp [check_job_validity, h, hp]

/-- Witness for C5's amended theorem: a completed 200 response stamps
`last_validated_at` and rewrites `is_valid`. -/
theorem validity_probe_field_updates_witness :
    (check_job_validity probeOk 5 staleJob).1 =
      { staleJob with is_valid := true, last_validated_at := some 5 } :=
  (validity_probe_field_updates probeOk 5 staleJob "u" 200).2.2 rfl rfl

/-- C6: when `upsert_batch` finds an existing row with the incoming
record's (source, external_id), it replaces that row by
`update_existing`, which takes exactly the scrape-mutable fields
(title, company, location, salary fields, tags, url, is_remote,
fetched_at) from the incoming record and keeps the identity columns,
`category`, `published_at` and the validity bookkeeping (`is_valid`,
`deleted_at`, `last_validated_at`) of the existing row. -/
theorem upsert_update_frame (e j : JobRec) (h : jobKey e = jobKey j) :
    upsert_batch [e] [j] = some [update_existing e j] ∧
    (update_existing e j).source = e.source ∧
    (update_existing e j).external_id = e.external_id ∧
    (update_existing e j).id = e.id ∧
    (update_existing e j).is_valid = e.is_valid ∧
    (update_existing e j).deleted_at = e.deleted_at ∧
    (update_existing e j).last_validated_at = e.last_validated_at ∧
    (update_existing e j).category = e.category ∧
    (update_existing e j).published_at = e.published_at ∧
    (update_existing e j).title = j.title ∧
    (update_existing e j).company = j.company ∧
    (update_existing e j).location = j.location ∧
    (update_existing e j).salary_min = j.salary_min ∧
    (update_existing e j).salary_max = j.salary_max ∧
    (update_existing e j).salary_text = j.salary_text ∧
    (update_existing e j).tags = j.tags ∧
    (update_existing e j).url = j.url ∧
    (update_existing e j).is_remote = j.is_remote ∧
    (update_existing e j).fetched_at = j.fetched_at := by
  refine ⟨?_, rfl, rfl, rfl, rfl, rfl, rfl, rfl, rfl, rfl, rfl, rfl, rfl,
    rfl, rfl, rfl, rfl, rfl, rfl⟩
  simp [upsert_batch, upsert_one, updateFirstMatch, h]

/-- Witness for C6: rescraping the baseline record updates it in
place. -/
theorem upsert_update_frame_witness :
    upsert_batch [baseJob] [jobT2] = some [update_existing baseJob jobT2] :=
  (upsert_update_frame baseJob jobT2 rfl).1

/-- Folding the gathered results concatenates each outcome's
contribution. -/
theorem foldl_fetch_contributions (init : List JobRec) (l : List FetchResult) :
    l.foldl (fun acc r => match r with | .ok js => acc ++ js | .error => acc) init =
      init ++ (l.map fetchContribution).flatten := by
  induction l generalizing init with
  | nil => simp
  | cons r rest ih =>
    cases r <;> simp [fetchContribution, ih, List.append_assoc]

/-- C9: `run_all` returns the concatenation, in registration order, of
the records of the units that ran and fetched successfully; a unit
whose fetch raises contributes nothing and its exception is absorbed,
not propagated — in particular three enabled units where the second
raises yield the records of the first and third. -/
theorem run_all_isolates_failures (adm : Bool)
    (scrapers : List ScraperUnit) (u1 u2 u3 : ScraperUnit)
    (j1 j3 : List JobRec) :
    (run_all adm scrapers =
      (((get_all_enabled scrapers).filter (should_run adm)).map
        (fun s => fetchContribution s.fetch)).flatten) ∧
    (u1.enabled = true → u2.enabled = true → u3.enabled = true →
      u1.fetch = .ok j1 → u2.fetch = .error → u3.fetch = .ok j3 →
      run_all true [u1, u2, u3] = j1 ++ j3) := by
  constructor
  · unfold run_all
    rw [foldl_fetch_contributions]
    simp [List.map_map]
    rfl
  · intro h1 h2 h3 f1 f2 f3
    unfold run_all get_all_enabled should_run
    simp [h1, h2, h3, f1, f2, f3]

/-- Witness for C9: a concrete three-unit run with the middle unit
raising. -/
theorem run_all_isolates_failures_witness :
    run_all true
      [⟨"a", true, .ok [baseJob]⟩, ⟨"b", true, .error⟩,
        ⟨"c", true, .ok [jobT2]⟩] = [baseJob] ++ [jobT2] :=
  (run_all_isolates_failures true []
    ⟨"a", true, .ok [baseJob]⟩ ⟨"b", true, .error⟩ ⟨"c", true, .ok [jobT2]⟩
    [baseJob] [jobT2]).2 rfl rfl rfl rfl rfl rfl

/-- The archive pass emits exactly the bounded selection of rows with
`deleted_at` past the cutoff, copied by `archive_job`, in table
order. -/
theorem archivePass_archived (now cutoff : Int) (budget : Nat)
    (jobs : List JobRec) :
    (archivePass now cutoff budget jobs).2 =
      ((jobs.filter (shouldArchive cutoff)).take budget).map (archive_job now) := by
  induction jobs generalizing budget with
  | nil => simp [archivePass]
  | cons j rest ih =>
    by_cases hc : 0 < budget ∧ shouldArchive cutoff j = true
    · obtain ⟨m, rfl⟩ : ∃ m, budget = m + 1 := ⟨budget - 1, by omega⟩
      simp [archivePass, hc, hc.2, ih]
    · rw [archivePass, if_neg hc]
      by_cases hs : shouldArchive cutoff j = true
      · have hb : budget = 0 := by
          rcases Nat.eq_zero_or_pos budget with h | h
          · exact h
          · exact absurd ⟨h, hs⟩ hc
        simp [hb, hs, ih]
      · simp [hs, ih, Bool.of_not_eq_true hs]

/-- The active table is, up to order, the remaining rows of the
archive pass plus the selected rows: each archived row is deleted
from the active table and nothing else changes. -/
theorem archivePass_perm (now cutoff : Int) (budget : Nat)
    (jobs : List JobRec) :
    jobs.Perm ((archivePass now cutoff budget jobs).1 ++
      ((jobs.filter (shouldArchive cutoff)).take budget)) := by
  induction jobs generalizing budget with
  | nil => simp [archivePass]
  | cons j rest ih =>
    by_cases hc : 0 < budget ∧ shouldArchive cutoff j = true
    · obtain ⟨m, rfl⟩ : ∃ m, budget = m + 1 := ⟨budget - 1, by omega⟩
      rw [archivePass, if_pos hc]
      simp only [List.filter_cons_of_pos hc.2, List.take_succ_cons]
      exact ((ih m).cons j).trans List.perm_middle.symm
    · rw [archivePass, if_neg hc]
      by_cases hs : shouldArchive cutoff j = true
      · have hb : budget = 0 := by
          rcases Nat.eq_zero_or_pos budget with h | h
          · exact h
          · exact absurd ⟨h, hs⟩ hc
        subst hb
        simpa using (ih 0).cons j
      · simp only [List.filter_cons_of_neg (by simpa using hs)]
        exact (ih budget).cons j

/-- C8: the archive pass of a cleanup cycle archives exactly the
bounded batch of rows whose `deleted_at` is older than the archive
cutoff — a row with `deleted_at` null is never selected — copying
every field and the original primary key into the archive row,
stamping `archived_at`, and deleting the original row from the active
table. -/
theorem cleanup_archive_spec (probe : String → ProbeResult)
    (now cutoff : Int) (policy : RetentionPolicy) (level : ThrottleLevel)
    (st : StoreState) (budget : Nat) (jobs : List JobRec) (j : JobRec) :
    ((archivePass now cutoff budget jobs).2 =
      ((jobs.filter (shouldArchive cutoff)).take budget).map (archive_job now)) ∧
    jobs.Perm ((archivePass now cutoff budget jobs).1 ++
      ((jobs.filter (shouldArchive cutoff)).take budget)) ∧
    (shouldArchive cutoff j = true ↔ ∃ d, j.deleted_at = some d ∧ d < cutoff) ∧
    ((archive_job now j).id = j.id ∧
     (archive_job now j).source = j.source ∧
     (archive_job now j).external_id = j.external_id ∧
     (archive_job now j).title = j.title ∧
     (archive_job now j).company = j.company ∧
     (archive_job now j).location = j.location ∧
     (archive_job now j).salary_min = j.salary_min ∧
     (archive_job now j).salary_max = j.salary_max ∧
     (archive_job now j).salary_text = j.salary_text ∧
     (archive_job now j).category = j.category ∧
     (archive_job now j).tags = j.tags ∧
     (archive_job now j).url = j.url ∧
     (archive_job now j).published_at = j.published_at ∧
     (archive_job now j).fetched_at = j.fetched_at ∧
     (archive_job now j).is_remote = j.is_remote ∧
     (archive_job now j).is_valid = j.is_valid ∧
     (archive_job now j).last_validated_at = j.last_validated_at ∧
     (archive_job now j).archived_at = now) ∧
    (level.val < ThrottleLevel.HEAVY.val →
      (run_cleanup_cycle probe now policy level st).1.archived =
        st.archived ++
          (((validatePass probe now (now - policy.expired_days) 100 st.jobs).1.filter
              (shouldArchive (now - policy.archive_days))).take 100).map
            (archive_job now)) := by
  refine ⟨archivePass_archived now cutoff budget jobs,
    archivePass_perm now cutoff budget jobs, ?_,
    ⟨rfl, rfl, rfl, rfl, rfl, rfl, rfl, rfl, rfl, rfl, rfl, rfl, rfl, rfl,
      rfl, rfl, rfl, rfl⟩, ?_⟩
  · cases hd : j.deleted_at <;> simp [shouldArchive, hd]
  · intro h
    unfold run_cleanup_cycle
    rw [if_neg (by omega)]
    simp [archivePass_archived]

/-- Witness for C8: the 91-day-old soft-deleted record is archived by
a cycle at NORMAL, keeping its primary key. -/
theorem cleanup_archive_spec_witness :
    (run_cleanup_cycle probeOk 0 defaultPolicy .NORMAL archStore).1.archived =
      [archive_job 0 oldDeletedJob] := by
  have h := (cleanup_archive_spec probeOk 0 (0 - 90) defaultPolicy .NORMAL
    archStore 100 archStore.jobs oldDeletedJob).2.2.2.2 (by decide)
  rw [h]
  rfl

/-- A validity check never touches `deleted_at`. -/
theorem check_job_validity_deleted_at (probe : String → ProbeResult)
    (now : Int) (j : JobRec) :
    (check_job_validity probe now j).1.deleted_at = j.deleted_at := by
  cases hu : j.url with
  | none => simp [check_job_validity, hu]
  | some u => cases hp : probe u <;> simp [check_job_validity, hu, hp]

/-- Row by row, the validation pass never clears `deleted_at`: a row
that entered with `deleted_at` set leaves with the same value (only
rows with `deleted_at` null are selected as stale, and the check
itself never touches the column). -/
theorem validatePass_deleted_forward (probe : String → ProbeResult)
    (now cutoff : Int) (budget : Nat) (jobs : List JobRec) :
    List.Forall₂ (fun a b => a.deleted_at ≠ none → b.deleted_at = a.deleted_at)
      jobs (validatePass probe now cutoff budget jobs).1 := by
  induction jobs generalizing budget with
  | nil => exact List.Forall₂.nil
  | cons j rest ih =>
    by_cases hc : 0 < budget ∧ isStale cutoff j = true
    · rw [validatePass, if_pos hc]
      refine List.Forall₂.cons (fun hd => ?_) (ih (budget - 1))
      have : j.deleted_at = none := by
        have := hc.2
        simp [isStale] at this
        exact this.2
      exact absurd this hd
    · rw [validatePass, if_neg hc]
      exact List.Forall₂.cons (fun _ => rfl) (ih budget)

/-- The rows the archive pass leaves in the active table are a
sublist of the rows it started from. -/
theorem archivePass_remaining_sublist (now cutoff : Int) (budget : Nat)
    (jobs : List JobRec) :
    (archivePass now cutoff budget jobs).1.Sublist jobs := by
  induction jobs generalizing budget with
  | nil => simp [archivePass]
  | cons j rest ih =>
    by_cases hc : 0 < budget ∧ shouldArchive cutoff j = true
    · rw [archivePass, if_pos hc]
      exact (ih (budget - 1)).cons j
    · rw [archivePass, if_neg hc]
      exact (ih budget).cons₂ j

/-- C10: the retention lifecycle only moves forward.  Across a whole
cleanup cycle the archive table is append-only (existing archive rows
are never mutated), and the active rows evolve by the validation pass
— which never clears a set `deleted_at` — followed by the archive
pass, which only removes rows; the per-operation facts hold too: a
validity check never touches `deleted_at` and a soft-delete always
sets it. -/
theorem retention_monotone_progression (probe : String → ProbeResult)
    (now : Int) (policy : RetentionPolicy) (level : ThrottleLevel)
    (st : StoreState) (j : JobRec) :
    (∃ newArch, (run_cleanup_cycle probe now policy level st).1.archived =
      st.archived ++ newArch) ∧
    ((check_job_validity probe now j).1.deleted_at = j.deleted_at) ∧
    ((soft_delete_job now j).deleted_at = some now) ∧
    (∃ jobs1,
      List.Forall₂ (fun a b => a.deleted_at ≠ none → b.deleted_at = a.deleted_at)
        st.jobs jobs1 ∧
      (run_cleanup_cycle probe now policy level st).1.jobs.Sublist jobs1) := by
  by_cases h : ThrottleLevel.HEAVY.val ≤ level.val
  · refine ⟨⟨[], ?_⟩, check_job_validity_deleted_at probe now j, rfl,
      st.jobs, List.forall₂_same.mpr (fun a _ _ => rfl), ?_⟩
    · unfold run_cleanup_cycle
      rw [if_pos h]
      simp
    · unfold run_cleanup_cycle
      rw [if_pos h]
  · refine ⟨⟨(archivePass now (now - policy.archive_days) 100
        (validatePass probe now (now - policy.expired_days) 100 st.jobs).1).2, ?_⟩,
      check_job_validity_deleted_at probe now j, rfl,
      (validatePass probe now (now - policy.expired_days) 100 st.jobs).1,
      validatePass_deleted_forward probe now (now - policy.expired_days) 100 st.jobs,
      ?_⟩
    · unfold run_cleanup_cycle
      rw [if_neg h]
    · unfold run_cleanup_cycle
      rw [if_neg h]
      exact archivePass_remaining_sublist now (now - policy.archive_days) 100 _

/-- Witness for C10 at a concrete cycle over the stale store. -/
theorem retention_monotone_progression_witness :
    (∃ newArch, (run_cleanup_cycle probeGone 0 defaultPolicy .NORMAL
        staleStore).1.archived = staleStore.archived ++ newArch) ∧
    ((check_job_validity probeGone 0 oldDeletedJob).1.deleted_at =
      oldDeletedJob.deleted_at) ∧
    ((soft_delete_job 0 oldDeletedJob).deleted_at = some 0) ∧
    (∃ jobs1,
      List.Forall₂ (fun a b => a.deleted_at ≠ none → b.deleted_at = a.deleted_at)
        staleStore.jobs jobs1 ∧
      (run_cleanup_cycle probeGone 0 defaultPolicy .NORMAL
        staleStore).1.jobs.Sublist jobs1) :=
  retention_monotone_progression probeGone 0 defaultPolicy .NORMAL staleStore
    oldDeletedJob

/-- Two successive in-place updates collapse to the last one. -/
theorem update_existing_absorb (e j1 j2 : JobRec) :
    update_existing (update_existing e j1) j2 = update_existing e j2 := rfl

/-- Updating a row with itself changes nothing. -/
theorem update_existing_self (e : JobRec) : update_existing e e = e := rfl

/-- An in-place update never changes the row key. -/
theorem update_existing_key (e j : JobRec) :
    jobKey (update_existing e j) = jobKey e := rfl

/-- An updated row keeps all non-mutable columns of the original. -/
theorem nonMutEq_update (e j : JobRec) : NonMutEq (update_existing e j) e :=
  ⟨rfl, rfl, rfl, rfl, rfl, rfl, rfl, rfl⟩

/-- The updated row depends only on the non-mutable columns of the
existing row. -/
theorem update_congr_nonmut (e x j : JobRec) (h : NonMutEq e x) :
    update_existing e j = update_existing x j := by
  obtain ⟨h1, h2, h3, h4, h5, h6, h7, h8⟩ := h
  cases e
  cases x
  simp only [update_existing]
  simp_all

/-- `updateFirstMatch` preserves the key column of every row. -/
theorem uFM_keys (t : List JobRec) (j : JobRec) :
    (updateFirstMatch t j).map jobKey = t.map jobKey := by
  induction t with
  | nil => rfl
  | cons e rest ih =>
    by_cases h : jobKey e = jobKey j
    · simp [updateFirstMatch, h, update_existing_key]
    · simp [updateFirstMatch, h, ih]

/-- A whole batch of in-place updates preserves the key column. -/
theorem fold_uFM_keys (b : List JobRec) :
    ∀ t : List JobRec,
    (b.foldl updateFirstMatch t).map jobKey = t.map jobKey := by
  induction b with
  | nil => intro t; rfl
  | cons j rest ih => intro t; rw [List.foldl_cons, ih, uFM_keys]

/-- `updateFirstMatch` rewrites exactly the first row with the
incoming key. -/
theorem uFM_hit (j : JobRec) :
    ∀ (pre : List JobRec) (e : JobRec) (post : List JobRec),
    (∀ x ∈ pre, jobKey x ≠ jobKey j) → jobKey e = jobKey j →
    updateFirstMatch (pre ++ e :: post) j = pre ++ update_existing e j :: post := by
  intro pre
  induction pre with
  | nil => intro e post _ he; simp [updateFirstMatch, he]
  | cons x pre ih =>
    intro e post hpre he
    have hx : jobKey x ≠ jobKey j := hpre x (by simp)
    simp only [List.cons_append, updateFirstMatch, if_neg hx, List.append_eq]
    rw [ih e post (fun y hy => hpre y (by simp [hy])) he]

/-- If every row that could match would be unchanged by the update,
`updateFirstMatch` is the identity. -/
theorem uFM_self_of (j : JobRec) :
    ∀ t : List JobRec,
    (∀ x ∈ t, jobKey x = jobKey j → update_existing x j = x) →
    updateFirstMatch t j = t := by
  intro t
  induction t with
  | nil => intro _; rfl
  | cons e rest ih =>
    intro h
    by_cases he : jobKey e = jobKey j
    · simp [updateFirstMatch, he, h e (by simp) he]
    · simp only [updateFirstMatch, if_neg he]
      rw [ih (fun y hy hk => h y (by simp [hy]) hk)]

/-- `updateFirstMatch` with no matching row is the identity. -/
theorem uFM_id (j : JobRec) (t : List JobRec)
    (h : ∀ x ∈ t, jobKey x ≠ jobKey j) : updateFirstMatch t j = t :=
  uFM_self_of j t (fun x hx hk => absurd hk (h x hx))

/-- An update whose key lives in the left part touches only the left
part. -/
theorem uFM_append_of_mem (j : JobRec) :
    ∀ (A B : List JobRec), jobKey j ∈ A.map jobKey →
    updateFirstMatch (A ++ B) j = updateFirstMatch A j ++ B := by
  intro A
  induction A with
  | nil => intro B h; simp at h
  | cons e rest ih =>
    intro B h
    by_cases he : jobKey e = jobKey j
    · simp [updateFirstMatch, he]
    · have : jobKey j ∈ rest.map jobKey := by
        simp at h
        rcases h with h | h
        · exact absurd h.symm he
        · simpa using h
      simp [updateFirstMatch, he, ih B this]

/-- An update whose key misses the left part touches only the right
part. -/
theorem uFM_append_of_not_mem (j : JobRec) :
    ∀ (A B : List JobRec), jobKey j ∉ A.map jobKey →
    updateFirstMatch (A ++ B) j = A ++ updateFirstMatch B j := by
  intro A
  induction A with
  | nil => intro B _; rfl
  | cons e rest ih =>
    intro B h
    have he : jobKey e ≠ jobKey j := by
      intro hk
      exact h (by simp [hk])
    simp only [List.cons_append, updateFirstMatch, if_neg he, List.append_eq]
    rw [ih B (fun hk => h (by simp; right; simpa using hk))]

/-- A present key has a first row, preceded only by other keys. -/
theorem exists_first_row (k : String × String) :
    ∀ t : List JobRec, k ∈ t.map jobKey →
    ∃ (e : JobRec) (pre post : List JobRec), jobKey e = k ∧
      t = pre ++ e :: post ∧ ∀ x ∈ pre, jobKey x ≠ k := by
  intro t
  induction t with
  | nil => intro h; simp at h
  | cons y rest ih =>
    intro h
    by_cases hy : jobKey y = k
    · exact ⟨y, [], rest, hy, rfl, by simp⟩
    · have : k ∈ rest.map jobKey := by
        simp at h
        rcases h with h | h
        · exact absurd h.symm hy
        · simpa using h
      obtain ⟨e, pre, post, he, ht, hpre⟩ := ih this
      exact ⟨e, y :: pre, post, he, by simp [ht], by
        intro x hx
        rcases List.mem_cons.mp hx with rfl | hx
        · exact hy
        · exact hpre x hx⟩


/-- An update for a different key acts identically on two tables that
differ only in their first row for key `k`. -/
theorem uFM_differ_aux (j : JobRec) (k : String × String)
    (hk : jobKey j ≠ k) :
    ∀ (pre : List JobRec) (e eQ : JobRec) (post : List JobRec),
    (∀ x ∈ pre, jobKey x ≠ k) → jobKey e = k → jobKey eQ = k →
    ∃ (pre2 post2 : List JobRec), (∀ x ∈ pre2, jobKey x ≠ k) ∧
      updateFirstMatch (pre ++ e :: post) j = pre2 ++ e :: post2 ∧
      updateFirstMatch (pre ++ eQ :: post) j = pre2 ++ eQ :: post2 := by
  intro pre
  induction pre with
  | nil =>
    intro e eQ post _ he heQ
    have h1 : jobKey e ≠ jobKey j := by rw [he]; exact fun h => hk h.symm
    have h2 : jobKey eQ ≠ jobKey j := by rw [heQ]; exact fun h => hk h.symm
    refine ⟨[], updateFirstMatch post j, by simp, ?_, ?_⟩ <;>
      simp [updateFirstMatch, h1, h2]
  | cons x pre ih =>
    intro e eQ post hpre he heQ
    have hx : jobKey x ≠ k := hpre x (by simp)
    have hrest : ∀ y ∈ pre, jobKey y ≠ k := fun y hy => hpre y (by simp [hy])
    by_cases hxj : jobKey x = jobKey j
    · refine ⟨update_existing x j :: pre, post, ?_, ?_, ?_⟩
      · intro y hy
        rcases List.mem_cons.mp hy with rfl | hy
        · rw [update_existing_key]; exact hx
        · exact hrest y hy
      · simp [updateFirstMatch, hxj]
      · simp [updateFirstMatch, hxj]
    · obtain ⟨pre2, post2, hp2, hA, hB⟩ := ih e eQ post hrest he heQ
      refine ⟨x :: pre2, post2, ?_, ?_, ?_⟩
      · intro y hy
        rcases List.mem_cons.mp hy with rfl | hy
        · exact hx
        · exact hp2 y hy
      · simp only [List.cons_append, updateFirstMatch, if_neg hxj, List.append_eq]
        rw [hA]
      · simp only [List.cons_append, updateFirstMatch, if_neg hxj, List.append_eq]
        rw [hB]

/-- Two tables differing only in the non-key fields of their first
`k`-row converge under a batch that writes `k` at least once. -/
theorem fold_uFM_differ (k : String × String) :
    ∀ (b : List JobRec) (pre post : List JobRec) (e eQ : JobRec),
    (∀ x ∈ pre, jobKey x ≠ k) → jobKey e = k → jobKey eQ = k → NonMutEq e eQ →
    (∃ jQ ∈ b, jobKey jQ = k) →
    b.foldl updateFirstMatch (pre ++ e :: post) =
      b.foldl updateFirstMatch (pre ++ eQ :: post) := by
  intro b
  induction b with
  | nil =>
    intro pre post e eQ _ _ _ _ hw
    simp at hw
  | cons j rest ih =>
    intro pre post e eQ hpre he heQ hnm hw
    by_cases hj : jobKey j = k
    · have h1 : updateFirstMatch (pre ++ e :: post) j =
          pre ++ update_existing e j :: post :=
        uFM_hit j pre e post (fun x hx h => hpre x hx (h.trans (hj.symm ▸ rfl))) (he.trans hj.symm)
      have h2 : updateFirstMatch (pre ++ eQ :: post) j =
          pre ++ update_existing eQ j :: post :=
        uFM_hit j pre eQ post (fun x hx h => hpre x hx (h.trans (hj.symm ▸ rfl))) (heQ.trans hj.symm)
      simp only [List.foldl_cons, h1, h2, update_congr_nonmut e eQ j hnm]
    · obtain ⟨pre2, post2, hp2, hA, hB⟩ :=
        uFM_differ_aux j k hj pre e eQ post hpre he heQ
      have hw' : ∃ jQ ∈ rest, jobKey jQ = k := by
        rcases hw with ⟨jQ, hjQ, hkQ⟩
        rcases List.mem_cons.mp hjQ with rfl | hjQ
        · exact absurd hkQ hj
        · exact ⟨jQ, hjQ, hkQ⟩
      simp only [List.foldl_cons, hA, hB]
      exact ih pre2 post2 e eQ hp2 he heQ hnm hw'

/-- A batch that never writes key `k` preserves the first `k`-row
unchanged. -/
theorem fold_first_row (k : String × String) (e : JobRec) :
    ∀ (b : List JobRec) (pre post : List JobRec),
    (∀ x ∈ pre, jobKey x ≠ k) → jobKey e = k → (∀ jQ ∈ b, jobKey jQ ≠ k) →
    ∃ (pre2 post2 : List JobRec), (∀ x ∈ pre2, jobKey x ≠ k) ∧
      b.foldl updateFirstMatch (pre ++ e :: post) = pre2 ++ e :: post2 := by
  intro b
  induction b with
  | nil => intro pre post hpre he _; exact ⟨pre, post, hpre, rfl⟩
  | cons j rest ih =>
    intro pre post hpre he hb
    have hj : jobKey j ≠ k := hb j (by simp)
    obtain ⟨pre2, post2, hp2, hA, _⟩ := uFM_differ_aux j k hj pre e e post hpre he he
    have hrest : ∀ jQ ∈ rest, jobKey jQ ≠ k := fun y hy => hb y (by simp [hy])
    obtain ⟨pre3, post3, hp3, hfold⟩ := ih pre2 post2 hp2 he hrest
    exact ⟨pre3, post3, hp3, by rw [List.foldl_cons, hA, hfold]⟩

/-- Re-applying a suffix of a batch of in-place updates after the
whole batch has run changes nothing. -/
theorem fold_uFM_reapply :
    ∀ (b2 b1 t : List JobRec),
    b2.foldl updateFirstMatch ((b1 ++ b2).foldl updateFirstMatch t) =
      (b1 ++ b2).foldl updateFirstMatch t := by
  intro b2
  induction b2 with
  | nil => intro b1 t; rfl
  | cons j b2 ih =>
    intro b1 t
    have hassoc : b1 ++ j :: b2 = (b1 ++ [j]) ++ b2 := by simp
    have hIH : b2.foldl updateFirstMatch ((b1 ++ j :: b2).foldl updateFirstMatch t) =
        (b1 ++ j :: b2).foldl updateFirstMatch t := by
      rw [hassoc]
      exact ih (b1 ++ [j]) t
    set w := (b1 ++ j :: b2).foldl updateFirstMatch t with hw
    show b2.foldl updateFirstMatch (updateFirstMatch w j) = w
    suffices h : b2.foldl updateFirstMatch (updateFirstMatch w j) =
        b2.foldl updateFirstMatch w by rw [h, hIH]
    by_cases hkmem : jobKey j ∈ w.map jobKey
    · by_cases hwr : ∃ jQ ∈ b2, jobKey jQ = jobKey j
      · obtain ⟨e, pre, post, he, hdec, hpre⟩ :=
          exists_first_row (jobKey j) w hkmem
        have hhit : updateFirstMatch w j = pre ++ update_existing e j :: post := by
          rw [hdec]
          exact uFM_hit j pre e post hpre he
        rw [hhit]
        conv_rhs => rw [hdec]
        exact fold_uFM_differ (jobKey j) b2 pre post (update_existing e j) e
          hpre (by rw [update_existing_key, he]) he (nonMutEq_update e j) hwr
      · -- no later write to this key: w's first row already carries j's fields
        push_neg at hwr
        have hv0keys : jobKey j ∈ ((b1.foldl updateFirstMatch t).map jobKey) := by
          have h1 : w.map jobKey = t.map jobKey := by rw [hw]; exact fold_uFM_keys _ t
          have h2 : (b1.foldl updateFirstMatch t).map jobKey = t.map jobKey :=
            fold_uFM_keys b1 t
          rw [h2, ← h1]
          exact hkmem
        obtain ⟨e0, pre0, post0, he0, hdec0, hpre0⟩ :=
          exists_first_row (jobKey j) (b1.foldl updateFirstMatch t) hv0keys
        have hv : (b1 ++ [j]).foldl updateFirstMatch t =
            pre0 ++ update_existing e0 j :: post0 := by
          rw [List.foldl_append, List.foldl_cons, List.foldl_nil, hdec0]
          exact uFM_hit j pre0 e0 post0 hpre0 he0
        have hwdec : ∃ (pre2 post2 : List JobRec),
            (∀ x ∈ pre2, jobKey x ≠ jobKey j) ∧
            w = pre2 ++ update_existing e0 j :: post2 := by
          have : w = b2.foldl updateFirstMatch ((b1 ++ [j]).foldl updateFirstMatch t) := by
            rw [hw, hassoc, List.foldl_append]
          rw [this, hv]
          exact fold_first_row (jobKey j) (update_existing e0 j) b2 pre0 post0
            hpre0 (by rw [update_existing_key, he0]) hwr
        obtain ⟨pre2, post2, hp2, hwdec⟩ := hwdec
        have : updateFirstMatch w j = w := by
          rw [hwdec]
          rw [uFM_hit j pre2 (update_existing e0 j) post2 hp2
            (by rw [update_existing_key, he0])]
          rw [update_existing_absorb]
        rw [this]
    · have : updateFirstMatch w j = w := by
        refine uFM_id j w (fun x hx hk => hkmem ?_)
        rw [← hk]
        exact List.mem_map_of_mem jobKey hx
      rw [this]


/-- The committed view evolves by in-place updates only: pending
inserts never touch it. -/
theorem fold_upsert_view :
    ∀ (b : List JobRec) (v p : List JobRec),
    (b.foldl upsert_one (v, p)).1 = b.foldl updateFirstMatch v := by
  intro b
  induction b with
  | nil => intro v p; rfl
  | cons j rest ih =>
    intro v p
    by_cases hm : v.any (fun e => jobKey e = jobKey j)
    · simp only [List.foldl_cons, upsert_one, if_pos hm]
      exact ih _ p
    · have hid : updateFirstMatch v j = v := by
        refine uFM_id j v (fun x hx hk => ?_)
        exact hm (List.any_eq_true.mpr ⟨x, hx, by simp [hk]⟩)
      simp only [List.foldl_cons, upsert_one, if_neg hm, hid]
      exact ih _ _

/-- Pending inserts are never removed during a batch. -/
theorem pending_mono :
    ∀ (b : List JobRec) (v p : List JobRec) (x : JobRec), x ∈ p →
    x ∈ (b.foldl upsert_one (v, p)).2 := by
  intro b
  induction b with
  | nil => intro v p x hx; exact hx
  | cons j rest ih =>
    intro v p x hx
    by_cases hm : v.any (fun e => jobKey e = jobKey j)
    · simp only [List.foldl_cons, upsert_one, if_pos hm]
      exact ih _ p x hx
    · simp only [List.foldl_cons, upsert_one, if_neg hm]
      exact ih _ _ x (by simp [hx])

/-- A batch record whose key is absent from the view ends up in the
pending inserts (the view keys never change, so its lookup misses
every time). -/
theorem fresh_in_pending :
    ∀ (b : List JobRec) (v p : List JobRec) (j : JobRec), j ∈ b →
    jobKey j ∉ v.map jobKey → j ∈ (b.foldl upsert_one (v, p)).2 := by
  intro b
  induction b with
  | nil => intro v p j hj _; simp at hj
  | cons j0 rest ih =>
    intro v p j hj hfresh
    rcases List.mem_cons.mp hj with rfl | hj
    · have hm : ¬ v.any (fun e => jobKey e = jobKey j) = true := by
        intro hm
        obtain ⟨x, hx, hk⟩ := List.any_eq_true.mp hm
        exact hfresh (by
          simp at hk
          exact hk ▸ List.mem_map_of_mem jobKey hx)
      simp only [List.foldl_cons, upsert_one, if_neg hm]
      exact pending_mono rest _ _ j (by simp)
    · by_cases hm : v.any (fun e => jobKey e = jobKey j0)
      · simp only [List.foldl_cons, upsert_one, if_pos hm]
        refine ih _ p j hj ?_
        rw [uFM_keys]
        exact hfresh
      · simp only [List.foldl_cons, upsert_one, if_neg hm]
        exact ih _ _ j hj hfresh

/-- When every batch key is present in the view, the batch performs
only in-place updates and pends nothing. -/
theorem present_second_run :
    ∀ (b : List JobRec) (v p : List JobRec),
    (∀ j ∈ b, jobKey j ∈ v.map jobKey) →
    b.foldl upsert_one (v, p) = (b.foldl updateFirstMatch v, p) := by
  intro b
  induction b with
  | nil => intro v p _; rfl
  | cons j rest ih =>
    intro v p hall
    have hm : v.any (fun e => jobKey e = jobKey j) = true := by
      obtain ⟨k, hk, hkey⟩ := List.mem_map.mp (hall j (by simp))
      exact List.any_eq_true.mpr ⟨k, hk, by simp [hkey]⟩
    simp only [List.foldl_cons, upsert_one, if_pos hm]
    refine ih _ p (fun x hx => ?_)
    rw [uFM_keys]
    exact hall x (by simp [hx])

/-- Updating past freshly committed rows: when each appended row is
the unique batch record of its (fresh) key, re-running the batch
updates distribute over the append and leave the appended rows
alone. -/
theorem append_pending_absorb :
    ∀ (b A P : List JobRec),
    (∀ x ∈ P, jobKey x ∉ A.map jobKey) →
    (∀ x ∈ P, ∀ j ∈ b, jobKey j = jobKey x → j = x) →
    b.foldl updateFirstMatch (A ++ P) = b.foldl updateFirstMatch A ++ P := by
  intro b
  induction b with
  | nil => intro A P _ _; rfl
  | cons j rest ih =>
    intro A P h1 h2
    by_cases hm : jobKey j ∈ A.map jobKey
    · simp only [List.foldl_cons, uFM_append_of_mem j A P hm]
      refine ih _ P (fun x hx => ?_) (fun x hx jQ hjQ => h2 x hx jQ (by simp [hjQ]))
      rw [uFM_keys]
      exact h1 x hx
    · have hA : updateFirstMatch A j = A := by
        refine uFM_id j A (fun x hx hk => hm ?_)
        rw [← hk]
        exact List.mem_map_of_mem jobKey hx
      have hP : updateFirstMatch P j = P := by
        refine uFM_self_of j P (fun x hx hk => ?_)
        have hjx := h2 x hx j (by simp) hk.symm
        rw [hjx]
        exact update_existing_self x
      simp only [List.foldl_cons, uFM_append_of_not_mem j A P hm, hA, hP]
      exact ih A P h1 (fun x hx jQ hjQ => h2 x hx jQ (by simp [hjQ]))

/-- Unfolding a successful `upsert_batch` commit: the pending keys
are distinct, disjoint from the view keys, and the result is view
plus pending. -/
theorem upsert_batch_eq_some (store jobs s1 : List JobRec)
    (h : upsert_batch store jobs = some s1) :
    ((jobs.foldl upsert_one (store, [])).2.map jobKey).Nodup ∧
    (∀ j ∈ (jobs.foldl upsert_one (store, [])).2,
      jobKey j ∉ (jobs.foldl upsert_one (store, [])).1.map jobKey) ∧
    s1 = (jobs.foldl upsert_one (store, [])).1 ++
      (jobs.foldl upsert_one (store, [])).2 := by
  by_cases hc : (((jobs.foldl upsert_one (store, [])).2.map jobKey).Nodup ∧
      ∀ j ∈ (jobs.foldl upsert_one (store, [])).2,
        jobKey j ∉ (jobs.foldl upsert_one (store, [])).1.map jobKey)
  · refine ⟨hc.1, hc.2, ?_⟩
    have := h
    simp only [upsert_batch, if_pos hc] at this
    exact (Option.some.injEq _ _ ▸ this).symm
  · simp only [upsert_batch, if_neg hc] at h
    exact absurd h (by simp)


/-- C7: applying the same batch to `upsert_batch` twice in succession
yields the same stored rows as applying it once — a successful first
application leaves a store on which the second application commits
the identical store — and a committed batch never creates two rows
with the same (source, external_id): key-uniqueness of the store is
preserved. -/
theorem upsert_batch_idempotent (store jobs s1 : List JobRec) :
    (upsert_batch store jobs = some s1 → upsert_batch s1 jobs = some s1) ∧
    ((store.map jobKey).Nodup → upsert_batch store jobs = some s1 →
      (s1.map jobKey).Nodup) := by
  constructor
  · intro h
    obtain ⟨hnd, hdisj, hs1⟩ := upsert_batch_eq_some store jobs s1 h
    have hview : (jobs.foldl upsert_one (store, ([] : List JobRec))).1 =
        jobs.foldl updateFirstMatch store := fold_upsert_view jobs store []
    have hkeys1 : (jobs.foldl upsert_one (store, ([] : List JobRec))).1.map jobKey =
        store.map jobKey := by
      rw [hview]
      exact fold_uFM_keys jobs store
    have H1 : ∀ x ∈ (jobs.foldl upsert_one (store, ([] : List JobRec))).2,
        jobKey x ∉ store.map jobKey := by
      intro x hx
      rw [← hkeys1]
      exact hdisj x hx
    have H2 : ∀ x ∈ (jobs.foldl upsert_one (store, ([] : List JobRec))).2,
        ∀ j ∈ jobs, jobKey j = jobKey x → j = x := by
      intro x hx j hj hk
      have hjf : j ∈ (jobs.foldl upsert_one (store, ([] : List JobRec))).2 :=
        fresh_in_pending jobs store [] j hj (by rw [hk]; exact H1 x hx)
      exact List.inj_on_of_nodup_map hnd hjf hx hk
    have hstar : jobs.foldl updateFirstMatch
          (store ++ (jobs.foldl upsert_one (store, ([] : List JobRec))).2) =
        jobs.foldl updateFirstMatch store ++
          (jobs.foldl upsert_one (store, ([] : List JobRec))).2 :=
      append_pending_absorb jobs store _ H1 H2
    have hs1Q : s1 = jobs.foldl updateFirstMatch
        (store ++ (jobs.foldl upsert_one (store, ([] : List JobRec))).2) := by
      rw [hs1, hview, hstar]
    have hpres : ∀ j ∈ jobs, jobKey j ∈ s1.map jobKey := by
      intro j hj
      have hks1 : s1.map jobKey =
          (store ++ (jobs.foldl upsert_one (store, ([] : List JobRec))).2).map jobKey := by
        rw [hs1Q]
        exact fold_uFM_keys jobs _
      rw [hks1, List.map_append, List.mem_append]
      by_cases hm : jobKey j ∈ store.map jobKey
      · exact Or.inl hm
      · exact Or.inr (List.mem_map_of_mem jobKey
          (fresh_in_pending jobs store [] j hj hm))
    have hfix : jobs.foldl updateFirstMatch s1 = s1 := by
      conv_lhs => rw [hs1Q]
      rw [hs1Q]
      simpa using fold_uFM_reapply jobs []
        (store ++ (jobs.foldl upsert_one (store, ([] : List JobRec))).2)
    have hX : jobs.foldl upsert_one (s1, ([] : List JobRec)) = (s1, []) := by
      rw [present_second_run jobs s1 [] hpres, hfix]
    simp [upsert_batch, hX]
  · intro hnodup h
    obtain ⟨hnd, hdisj, hs1⟩ := upsert_batch_eq_some store jobs s1 h
    have hkeys1 : (jobs.foldl upsert_one (store, ([] : List JobRec))).1.map jobKey =
        store.map jobKey := by
      rw [fold_upsert_view jobs store []]
      exact fold_uFM_keys jobs store
    rw [hs1, List.map_append, List.nodup_append]
    refine ⟨by rw [hkeys1]; exact hnodup, hnd, ?_⟩
    intro a ha hb
    obtain ⟨x, hx, rfl⟩ := List.mem_map.mp hb
    exact hdisj x hx ha

/-- Witness for C7: re-applying the one-record batch to the updated
store returns it unchanged. -/
theorem upsert_batch_idempotent_witness :
    upsert_batch [update_existing baseJob jobT2] [jobT2] =
      some [update_existing baseJob jobT2] :=
  (upsert_batch_idempotent [baseJob] [jobT2]
    [update_existing baseJob jobT2]).1 (by decide)

end JobIntel

